import Mathlib

/-!
Verification of the `safe_ascii` repository: a shallow embedding of

* `src/safe_ascii/src/lib.rs` — the mapping-table library (`AsciiMapping`,
  `map_to_mnemonic`, `map_to_escape`, `map_suppress`);
* `src/src/main.rs` — the bounded streaming converter (`process`, the
  per-source loop of `main`, and the `try_process` broken-pipe wrapper).

Rust `u8` values are modelled as `Nat` (all call sites keep them `< 256`),
Rust `String` as `List Char` (a sequence of Unicode scalar values, exactly the
character content of a Rust string), the `i128` truncation budget as `Int`
(an `i128` never overflows here: the budget only moves towards zero by chunk
lengths), and the 256-entry `[String; 256]` table by its lookup function
`Nat → List Char` (the loop in `AsciiMapping::new` fills entry `i` with
`(i as char).to_string()` when excluded and `map_fn(i)` otherwise, which is
written below as the corresponding function of `i`).  A Rust panic is
modelled as `Option.none`, and the byte level of a Rust `String`
(`as_bytes`) by an explicit UTF-8 encoder.
-/

set_option maxRecDepth 4000

/-- Rust `(i as char).to_string()`: the one-character string holding the
Unicode scalar value `i` (every `i < 256` is a valid scalar value). -/
def charToString (b : Nat) : List Char := [Char.ofNat b]

/-- Function `map_to_mnemonic` from `src/safe_ascii/src/lib.rs` lines 82-121: bracketed
names for the 33 control bytes and `(SP)`, the verbatim character for
0x21..=0x7E, `(DEL)` for 0x7F and `(>7F)` for 0x80..=0xFF. -/
def map_to_mnemonic (c : Nat) : List Char :=
  match c with
  | 0 => "(NUL)".data
  | 1 => "(SOH)".data
  | 2 => "(STX)".data
  | 3 => "(ETX)".data
  | 4 => "(EOT)".data
  | 5 => "(ENQ)".data
  | 6 => "(ACK)".data
  | 7 => "(BEL)".data
  | 8 => "(BS)".data
  | 9 => "(HT)".data
  | 10 => "(LF)".data
  | 11 => "(VT)".data
  | 12 => "(FF)".data
  | 13 => "(CR)".data
  | 14 => "(SO)".data
  | 15 => "(SI)".data
  | 16 => "(DLE)".data
  | 17 => "(DC1)".data
  | 18 => "(DC2)".data
  | 19 => "(DC3)".data
  | 20 => "(DC4)".data
  | 21 => "(NAK)".data
  | 22 => "(SYN)".data
  | 23 => "(ETB)".data
  | 24 => "(CAN)".data
  | 25 => "(EM)".data
  | 26 => "(SUB)".data
  | 27 => "(ESC)".data
  | 28 => "(FS)".data
  | 29 => "(GS)".data
  | 30 => "(RS)".data
  | 31 => "(US)".data
  | 32 => "(SP)".data
  | 127 => "(DEL)".data
  | c => if c ≤ 126 then [Char.ofNat c] else "(>7F)".data

/-- Function `map_to_escape` from `src/safe_ascii/src/lib.rs` lines 139-141:
`format!("\\x{c:02x}")`, a four-character lowercase hex escape for EVERY
byte, printable ones included (`Nat.digitChar` yields `0`-`9`/`a`-`f`). -/
def map_to_escape (c : Nat) : List Char :=
  ['\\', 'x', Nat.digitChar (c / 16 % 16), Nat.digitChar (c % 16)]

/-- Function `map_suppress` from `src/safe_ascii/src/lib.rs` lines 160-165: the
verbatim character for 0x21..=0x7E, the empty string otherwise. -/
def map_suppress (c : Nat) : List Char :=
  if 33 ≤ c ∧ c ≤ 126 then [Char.ofNat c] else []

/-- Structure `AsciiMapping` from `src/safe_ascii/src/lib.rs`: the precomputed
256-entry table, modelled by its lookup function on byte values. -/
structure AsciiMapping where
  mapping : Nat → List Char

/-- Constructor `AsciiMapping::new` (lib.rs lines 20-32): entry `i` is
`(i as char).to_string()` when `exclusion_list[i]`, else `map_fn(i)`. -/
def AsciiMapping.new (map_fn : Nat → List Char) (exclusion_list : Nat → Bool) :
    AsciiMapping :=
  ⟨fun i => if exclusion_list i then charToString i else map_fn i⟩

/-- Method `AsciiMapping::convert_u8` (lib.rs lines 43-45): table lookup. -/
def AsciiMapping.convert_u8 (m : AsciiMapping) (input : Nat) : List Char :=
  m.mapping input

/-- The conversion of a whole byte list:
`l.iter().map(|c| mapping[c]).collect().join("")`. -/
def convAll (m : AsciiMapping) (l : List Nat) : List Char :=
  (l.map m.mapping).flatten

/-- Method `AsciiMapping::convert_u8_slice` (lib.rs lines 56-62): converts
`input[..size]`.  The Rust slice expression `input[..size]` panics when
`size > input.len()`; the panic is modelled as `none`. -/
def AsciiMapping.convert_u8_slice (m : AsciiMapping) (input : List Nat)
    (size : Nat) : Option (List Char) :=
  if size ≤ input.length then some (convAll m (input.take size)) else none

/-- Enum `Mode` from `src/src/main.rs` lines 14-21. -/
inductive Mode
  | Mnemonic
  | Escape
  | Suppress
deriving DecidableEq

/-- The `map_fn` chosen by `main` (main.rs lines 84-88). -/
def Mode.mapFn : Mode → (Nat → List Char)
  | .Mnemonic => map_to_mnemonic
  | .Escape => map_to_escape
  | .Suppress => map_suppress

/-- UTF-8 encoding of one Unicode scalar value (what Rust's
`String::as_bytes` exposes per character). -/
def utf8EncodeChar (c : Char) : List Nat :=
  let n := c.toNat
  if n < 0x80 then [n]
  else if n < 0x800 then [0xC0 + n / 64, 0x80 + n % 64]
  else if n < 0x10000 then
    [0xE0 + n / 4096, 0x80 + n / 64 % 64, 0x80 + n % 64]
  else
    [0xF0 + n / 262144, 0x80 + n / 4096 % 64, 0x80 + n / 64 % 64,
     0x80 + n % 64]

/-- UTF-8 encoding of a string: the bytes `as_bytes` yields. -/
def utf8Encode (s : List Char) : List Nat :=
  (s.map utf8EncodeChar).flatten

/-- Function `process` from `src/src/main.rs` lines 148-184, the bounded streaming
converter.  The sequence of `reader.read` results is modelled as a list of
chunks (each chunk the `n` bytes actually read); a read returning `n == 0`
is the end of the list, and an empty chunk inside the list also models a
zero read, on which the loop `break`s.  The result is the text written to
stdout, the final value of `*truncate`, and the number of reads that
returned data (chunks consumed from the reader).  Each `write_all` call of
the source passes `convert_u8_slice(&buf, k)` with `k ≤ n ≤ buf.len()`, the
conversion of the first `k` bytes read, written here as `convAll` of the
corresponding chunk piece (see `convert_u8_slice_eq_convAll`). -/
def process (m : AsciiMapping) : List (List Nat) → Int → List Char × Int × Nat
  | [], t => ([], t, 0)
  | c :: rest, t =>
    if c.length = 0 then ([], t, 0)
    else if t < 0 then
      -- no truncate limit: emit the whole chunk, budget unchanged
      let r := process m rest t
      (convAll m c ++ r.1, r.2.1, r.2.2 + 1)
    else if (c.length : Int) ≤ t then
      -- won't reach limit in this block: emit all, budget -= n
      let r := process m rest (t - c.length)
      (convAll m c ++ r.1, r.2.1, r.2.2 + 1)
    else
      -- will reach limit within this block: emit first `truncate` bytes,
      -- set budget to 0, and KEEP LOOPING (the source has no break here)
      let r := process m rest 0
      (convAll m (c.take t.toNat) ++ r.1, r.2.1, r.2.2 + 1)

/-- The per-source loop of `main` (`src/src/main.rs` lines 101-127): for each
source in order, return early when `truncate == 0`, otherwise run `process`
on it with the shared budget.  Each source is given by its list of read
chunks.  The result is the total text written, the final budget, and the
number of sources actually handed to `process`. -/
def runSources (m : AsciiMapping) :
    List (List (List Nat)) → Int → List Char × Int × Nat
  | [], t => ([], t, 0)
  | s :: rest, t =>
    if t = 0 then ([], t, 0)
    else
      let p := process m s t
      let r := runSources m rest p.2.1
      (p.1 ++ r.1, r.2.1, r.2.2 + 1)

/-- The kinds of `std::io::Error` the wrapper distinguishes: `BrokenPipe`
versus everything else (other kinds abstracted by a code). -/
inductive IoErrorKind
  | brokenPipe
  | other (code : Nat)
deriving DecidableEq

/-- What `try_process` does after `process` returns: return `Ok(())`,
terminate the process with an exit code, or propagate an `Err`. -/
inductive TryOutcome
  | ok
  | exitCode (n : Nat)
  | err (e : IoErrorKind)
deriving DecidableEq

/-- Wrapper `try_process` from `src/src/main.rs` lines 133-145, as a function of the
result `process` returned: on `Err` of kind `BrokenPipe` it calls
`std::process::exit(141)`; any other `Err` is rethrown with `?`; otherwise
it returns `Ok(())`. -/
def try_process (r : Except IoErrorKind Unit) : TryOutcome :=
  match r with
  | .ok _ => .ok
  | .error e => if e = .brokenPipe then .exitCode 141 else .err e

/-! ## Helper lemmas -/

theorem convAll_append (m : AsciiMapping) (a b : List Nat) :
    convAll m (a ++ b) = convAll m a ++ convAll m b := by
  simp [convAll]

theorem convAll_nil (m : AsciiMapping) : convAll m [] = [] := rfl

/-- The bridge between the slice conversion the Rust code calls and the
total function used in the `process` model: for an in-bounds size the slice
conversion succeeds and is `convAll` of the first `size` bytes. -/
theorem convert_u8_slice_eq_convAll (m : AsciiMapping) (input : List Nat)
    (size : Nat) (h : size ≤ input.length) :
    m.convert_u8_slice input size = some (convAll m (input.take size)) := by
  simp [AsciiMapping.convert_u8_slice, h]

/-- Behaviour of `process` on a nonnegative budget, any chunking with
nonempty chunks: it emits the conversion of the first `t` bytes of the whole
input (capped at the input length), ends with budget `t - min t len`, and
consumes every chunk (there is no early exit once the budget is spent). -/
theorem process_nonneg_spec (m : AsciiMapping) (cs : List (List Nat))
    (hne : ∀ c ∈ cs, c ≠ []) (t : Int) (ht : 0 ≤ t) :
    process m cs t =
      (convAll m (cs.flatten.take t.toNat),
       t - min t cs.flatten.length, cs.length) := by
  induction cs generalizing t with
  | nil =>
    simp only [process, List.flatten_nil, List.take_nil, List.length_nil,
      List.length_nil, convAll_nil]
    refine Prod.ext rfl (Prod.ext ?_ rfl)
    simp only
    omega
  | cons c rest ih =>
    have hc : c ≠ [] := hne c (List.mem_cons_self c rest)
    have hclen : ¬ c.length = 0 := by
      simpa [List.length_eq_zero] using hc
    have hrest : ∀ d ∈ rest, d ≠ [] := fun d hd => hne d (List.mem_cons_of_mem c hd)
    have hnotneg : ¬ t < 0 := by omega
    by_cases hle : (c.length : Int) ≤ t
    · have h0 : (0:Int) ≤ t - c.length := by omega
      simp only [process, hclen, if_false, hnotneg, hle, if_true,
        ih hrest (t - c.length) h0]
      have htake : (c ++ rest.flatten).take t.toNat
          = c ++ rest.flatten.take ((t - c.length).toNat) := by
        have hn : t.toNat - c.length = (t - c.length).toNat := by omega
        rw [List.take_append_eq_append_take,
          List.take_of_length_le (by omega : c.length ≤ t.toNat), hn]
      refine Prod.ext ?_ (Prod.ext ?_ ?_)
      · simp [List.flatten_cons, htake, convAll_append, convAll_nil]
      · simp only [List.flatten_cons, List.length_append]
        omega
      · simp
    · have hlt : t < (c.length : Int) := by omega
      simp only [process, hclen, if_false, hnotneg, hle, if_true,
        ih hrest 0 le_rfl]
      have htake : (c ++ rest.flatten).take t.toNat = c.take t.toNat := by
        rw [List.take_append_eq_append_take]
        have : t.toNat - c.length = 0 := by omega
        simp [this]
      refine Prod.ext ?_ (Prod.ext ?_ ?_)
      · simp [List.flatten_cons, htake, convAll_append, convAll_nil]
      · simp only [List.flatten_cons, List.length_append]
        omega
      · simp

/-- Behaviour of `process` on a negative budget: the whole input is
converted, the budget is untouched, every chunk is consumed. -/
theorem process_neg_spec (m : AsciiMapping) (cs : List (List Nat))
    (hne : ∀ c ∈ cs, c ≠ []) (t : Int) (ht : t < 0) :
    process m cs t = (convAll m cs.flatten, t, cs.length) := by
  induction cs with
  | nil => simp [process, convAll_nil]
  | cons c rest ih =>
    have hc : c ≠ [] := hne c (List.mem_cons_self c rest)
    have hclen : ¬ c.length = 0 := by
      simpa [List.length_eq_zero] using hc
    have hrest : ∀ d ∈ rest, d ≠ [] := fun d hd => hne d (List.mem_cons_of_mem c hd)
    simp [process, hclen, ht, ih hrest, List.flatten_cons, convAll_append]

/-- Flattening a list of singleton chunks gives back the byte list. -/
theorem flatten_map_single {α : Type} (l : List α) :
    (l.map fun b => [b]).flatten = l := by
  induction l with
  | nil => rfl
  | cons a l ih => simp [ih]

/-- On the printable range 0x21..=0x7E, `map_to_mnemonic` is the verbatim
character. -/
theorem map_to_mnemonic_printable :
    ∀ b < 127, 33 ≤ b → map_to_mnemonic b = charToString b := by
  decide

/-- On the printable range, `map_suppress` is the verbatim character. -/
theorem map_suppress_printable (b : Nat) (h1 : 33 ≤ b) (h2 : b ≤ 126) :
    map_suppress b = charToString b := by
  simp [map_suppress, h1, h2, charToString]

/-- For high bytes 0x80..=0xFF, the one-character string of the byte
UTF-8-encodes to two bytes, and not to the byte itself. -/
theorem utf8_high :
    ∀ b < 256, 128 ≤ b →
      (utf8Encode (charToString b)).length = 2 ∧
        utf8Encode (charToString b) ≠ [b] := by
  decide

/-! ## Claims -/

/-- C1, counterexample: the claim "printable bytes are never transformed,
for every mode" fails in `Escape` mode.  With the empty exclusion set,
`AsciiMapping::new(&map_to_escape, ...)` maps the printable byte 0x41 (`A`)
to the four-character escape `\x41`, not to `A`. -/
theorem c1_counterexample :
    (AsciiMapping.new map_to_escape (fun _ => false)).convert_u8 65 ≠
      charToString 65 := by
  decide

/-- C1 (amended): for every byte `b` in 0x21..=0x7E and every exclusion set,
the table built by `AsciiMapping::new` maps `b` to the single character `b`
itself under the `Mnemonic` and `Suppress` modes; under the `Escape` mode
the entry is the single character `b` when `b` is excluded and the
four-character hex escape `map_to_escape b` otherwise. -/
theorem c1_printable_passthrough (excl : Nat → Bool) (b : Nat)
    (h1 : 33 ≤ b) (h2 : b ≤ 126) :
    (AsciiMapping.new map_to_mnemonic excl).convert_u8 b = charToString b ∧
    (AsciiMapping.new map_suppress excl).convert_u8 b = charToString b ∧
    (AsciiMapping.new map_to_escape excl).convert_u8 b =
      (if excl b then charToString b else map_to_escape b) := by
  have hm := map_to_mnemonic_printable b (by omega) h1
  have hs := map_suppress_printable b h1 h2
  refine ⟨?_, ?_, rfl⟩
  · simp [AsciiMapping.new, AsciiMapping.convert_u8, hm]
  · simp [AsciiMapping.new, AsciiMapping.convert_u8, hs]

/-- C1, witness: the amended statement at the empty exclusion set and
`b = 0x41`. -/
theorem c1_witness :
    (AsciiMapping.new map_to_mnemonic (fun _ => false)).convert_u8 65 =
        charToString 65 ∧
    (AsciiMapping.new map_suppress (fun _ => false)).convert_u8 65 =
        charToString 65 ∧
    (AsciiMapping.new map_to_escape (fun _ => false)).convert_u8 65 =
      (if (fun (_ : Nat) => false) 65 then charToString 65
       else map_to_escape 65) :=
  c1_printable_passthrough (fun _ => false) 65 (by decide) (by decide)

/-- C6: for every byte `b < 256` in the exclusion set that is not printable,
and for every conversion mode of `main`, the table entry for `b` built by
`AsciiMapping::new` is the single-character text of `b` itself — the
exclusion pass-through overrides the mode's transformation. -/
theorem c6_exclusion_overrides (mode : Mode) (excl : Nat → Bool) (b : Nat)
    (hb : b < 256) (hnp : ¬ (33 ≤ b ∧ b ≤ 126)) (hx : excl b = true) :
    (AsciiMapping.new mode.mapFn excl).convert_u8 b = charToString b := by
  simp [AsciiMapping.new, AsciiMapping.convert_u8, hx]

/-- C6, witness: excluded byte 10 (LF) in `Mnemonic` mode passes through. -/
theorem c6_witness :
    (AsciiMapping.new Mode.Mnemonic.mapFn (fun x => x = 10)).convert_u8 10 =
      charToString 10 :=
  c6_exclusion_overrides Mode.Mnemonic (fun x => x = 10) 10 (by decide)
    (by decide) (by decide)

/-- C8: the result dispatch of `try_process`.  A `BrokenPipe` write failure
is never surfaced as an application I/O error: `try_process` never returns
`Err` of kind `BrokenPipe` (it terminates the run with exit code 141
instead), while an `Ok` run returns `Ok` and every other I/O failure is
propagated as `Err` to the caller. -/
theorem c8_broken_pipe :
    (try_process (Except.ok ()) = TryOutcome.ok) ∧
    (try_process (Except.error IoErrorKind.brokenPipe) =
        TryOutcome.exitCode 141) ∧
    (∀ e : IoErrorKind, e ≠ IoErrorKind.brokenPipe →
      try_process (Except.error e) = TryOutcome.err e) ∧
    (∀ r : Except IoErrorKind Unit,
      try_process r ≠ TryOutcome.err IoErrorKind.brokenPipe) := by
  refine ⟨rfl, by simp [try_process], ?_, ?_⟩
  · intro e he
    simp [try_process, he]
  · intro r
    match r with
    | .ok _ => simp [try_process]
    | .error e =>
      by_cases he : e = IoErrorKind.brokenPipe <;> simp [try_process, he]

/-- C8, witness: a non-broken-pipe error is propagated unchanged. -/
theorem c8_witness :
    try_process (Except.error (IoErrorKind.other 0)) =
      TryOutcome.err (IoErrorKind.other 0) :=
  c8_broken_pipe.2.2.1 (IoErrorKind.other 0) (by decide)

/-- C9: `AsciiMapping::convert_u8_slice(input, size)` is total exactly under
the precondition `size ≤ input.len()`: for every larger `size` the slice
expression `input[..size]` panics (modelled as `none`), and within the
precondition it returns the conversion of the first `size` bytes. -/
theorem c9_slice_precondition (m : AsciiMapping) (input : List Nat)
    (size : Nat) :
    (input.length < size → m.convert_u8_slice input size = none) ∧
    (size ≤ input.length →
      m.convert_u8_slice input size = some (convAll m (input.take size))) := by
  constructor
  · intro h
    have hn : ¬ size ≤ input.length := by omega
    simp [AsciiMapping.convert_u8_slice, hn]
  · intro h
    exact convert_u8_slice_eq_convAll m input size h

/-- C9, witness: a two-element slice of a one-element input panics. -/
theorem c9_witness :
    (AsciiMapping.new map_to_mnemonic (fun _ => false)).convert_u8_slice
      [65] 2 = none :=
  (c9_slice_precondition (AsciiMapping.new map_to_mnemonic (fun _ => false))
    [65] 2).1 (by decide)

/-- C10: for every excluded byte `b` in 0x80..=0xFF and any mode function,
the table entry is `(b as char).to_string() = [Char.ofNat b]`, whose UTF-8
encoding (what `as_bytes` emits) is two bytes long and differs from `[b]`:
the single byte `b` is not emitted verbatim at the byte level. -/
theorem c10_excluded_high_bytes (map_fn : Nat → List Char)
    (excl : Nat → Bool) (b : Nat) (h1 : 128 ≤ b) (h2 : b < 256)
    (hx : excl b = true) :
    (AsciiMapping.new map_fn excl).convert_u8 b = [Char.ofNat b] ∧
    (utf8Encode ((AsciiMapping.new map_fn excl).convert_u8 b)).length = 2 ∧
    utf8Encode ((AsciiMapping.new map_fn excl).convert_u8 b) ≠ [b] := by
  have hentry : (AsciiMapping.new map_fn excl).convert_u8 b = charToString b := by
    simp [AsciiMapping.new, AsciiMapping.convert_u8, hx]
  have h := utf8_high b h2 h1
  refine ⟨hentry, ?_, ?_⟩ <;> rw [hentry]
  · exact h.1
  · exact h.2

/-- C10, witness: excluded byte 0xFF under the mnemonic mode function. -/
theorem c10_witness :
    (AsciiMapping.new map_to_mnemonic (fun _ => true)).convert_u8 255 =
        [Char.ofNat 255] ∧
    (utf8Encode ((AsciiMapping.new map_to_mnemonic
        (fun _ => true)).convert_u8 255)).length = 2 ∧
    utf8Encode ((AsciiMapping.new map_to_mnemonic
        (fun _ => true)).convert_u8 255) ≠ [255] :=
  c10_excluded_high_bytes map_to_mnemonic (fun _ => true) 255 (by decide)
    (by decide) (by decide)

/-- C2, counterexample: `process` does NOT stop reading once the budget is
spent.  With budget 1 and the chunk sequence `[[65, 66], [67]]`, the first
chunk already exhausts the budget mid-chunk, yet both chunks are read
(read count 2, not 1); and with budget 0 from the start, the chunk `[65]`
is still read (read count 1, not 0), the claim said the converter reads
nothing and returns immediately. -/
theorem c2_counterexample :
    (process (AsciiMapping.new map_to_mnemonic (fun _ => false))
        [[65, 66], [67]] 1).2.2 = 2 ∧
    (process (AsciiMapping.new map_to_mnemonic (fun _ => false))
        [[65]] 0).2.2 = 1 := by
  decide

/-- C2 (amended): when `0 < budget < n` for the first chunk, `process`
emits exactly the first `budget` bytes' conversions and sets the budget to
0, but it does not stop there: every remaining chunk of the source is still
read to end of input, emitting nothing for it; likewise when the budget is
0 at the start of a chunk the chunk is still read, nothing is emitted and
the budget stays 0.  (The early return when the budget is already 0 before
a source starts is done by the caller `main`, not inside `process`; see
`runSources`.) -/
theorem c2_truncation_behavior (m : AsciiMapping) (c : List Nat)
    (rest : List (List Nat)) (t : Int) (hc : c ≠ [])
    (hrest : ∀ d ∈ rest, d ≠ []) (h0 : 0 < t) (hn : t < (c.length : Int)) :
    (process m (c :: rest) t).1 = convAll m (c.take t.toNat) ∧
    (process m (c :: rest) t).2.1 = 0 ∧
    (process m (c :: rest) t).2.2 = rest.length + 1 ∧
    (process m (c :: rest) 0).1 = [] ∧
    (process m (c :: rest) 0).2.1 = 0 ∧
    (process m (c :: rest) 0).2.2 = rest.length + 1 := by
  have hne : ∀ d ∈ c :: rest, d ≠ [] := by
    intro d hd
    rcases List.mem_cons.1 hd with h | h
    · exact h ▸ hc
    · exact hrest d h
  have hspec := process_nonneg_spec m (c :: rest) hne t (by omega)
  have hspec0 := process_nonneg_spec m (c :: rest) hne 0 le_rfl
  have hflat : (c :: rest).flatten = c ++ rest.flatten := List.flatten_cons
  have htake : (c ++ rest.flatten).take t.toNat = c.take t.toNat := by
    rw [List.take_append_eq_append_take]
    have hz : t.toNat - c.length = 0 := by omega
    simp [hz]
  refine ⟨?_, ?_, ?_, ?_, ?_, ?_⟩
  · rw [hspec]
    simp [htake]
  · rw [hspec]
    simp only [hflat, List.length_append]
    omega
  · rw [hspec]
    simp
  · rw [hspec0]
    simp [convAll_nil]
  · rw [hspec0]
    simp only [hflat, List.length_append]
    omega
  · rw [hspec0]
    simp

/-- C2, witness: the amended statement at budget 1 on chunks
`[[65, 66], [67]]`. -/
theorem c2_witness :
    (process (AsciiMapping.new map_to_mnemonic (fun _ => false))
        [[65, 66], [67]] 1).1 =
      convAll (AsciiMapping.new map_to_mnemonic (fun _ => false))
        ([65, 66].take (1 : Int).toNat) ∧
    (process (AsciiMapping.new map_to_mnemonic (fun _ => false))
        [[65, 66], [67]] 1).2.1 = 0 ∧
    (process (AsciiMapping.new map_to_mnemonic (fun _ => false))
        [[65, 66], [67]] 1).2.2 = [[67]].length + 1 ∧
    (process (AsciiMapping.new map_to_mnemonic (fun _ => false))
        [[65, 66], [67]] 0).1 = [] ∧
    (process (AsciiMapping.new map_to_mnemonic (fun _ => false))
        [[65, 66], [67]] 0).2.1 = 0 ∧
    (process (AsciiMapping.new map_to_mnemonic (fun _ => false))
        [[65, 66], [67]] 0).2.2 = [[67]].length + 1 :=
  c2_truncation_behavior (AsciiMapping.new map_to_mnemonic (fun _ => false))
    [65, 66] [[67]] 1 (by decide) (by decide) (by decide) (by decide)

/-- C3: chunk invariance.  For every input byte sequence, every mapping
table and every truncation budget, feeding the input in reads of size 1
produces exactly the same output and the same final budget as feeding it in
one single read. -/
theorem c3_chunk_invariance (m : AsciiMapping) (input : List Nat) (t : Int) :
    (process m (input.map fun b => [b]) t).1 = (process m [input] t).1 ∧
    (process m (input.map fun b => [b]) t).2.1 =
      (process m [input] t).2.1 := by
  by_cases hnil : input = []
  · subst hnil
    simp [process]
  · have hinput : ∀ c ∈ [input], c ≠ [] := by
      intro c hc
      rw [List.mem_singleton] at hc
      subst hc
      exact hnil
    have hsingle : ∀ c ∈ (input.map fun b => [b]), c ≠ [] := by
      intro c hc
      rcases List.mem_map.1 hc with ⟨b, _, rfl⟩
      simp
    rcases lt_or_le t 0 with ht | ht
    · rw [process_neg_spec m _ hsingle t ht, process_neg_spec m _ hinput t ht]
      simp [flatten_map_single]
    · rw [process_nonneg_spec m _ hsingle t ht,
        process_nonneg_spec m _ hinput t ht]
      simp [flatten_map_single]

/-- C4: truncation exactness.  For every budget `k ≥ 0` and every source
whose chunks (all nonempty) carry strictly more than `k` bytes in total, the
output of `process` is the conversion of exactly the first `k` input bytes,
and the budget is 0 when the run ends. -/
theorem c4_truncation_exact (m : AsciiMapping) (cs : List (List Nat))
    (k : Int) (hne : ∀ c ∈ cs, c ≠ []) (hk : 0 ≤ k)
    (hlen : k < (cs.flatten.length : Int)) :
    (process m cs k).1 = convAll m (cs.flatten.take k.toNat) ∧
    (process m cs k).2.1 = 0 := by
  rw [process_nonneg_spec m cs hne k hk]
  refine ⟨rfl, ?_⟩
  simp only
  omega

/-- C4, witness: budget 1 on the two-byte input `[65, 66]`. -/
theorem c4_witness :
    (process (AsciiMapping.new map_to_mnemonic (fun _ => false))
        [[65, 66]] 1).1 =
      convAll (AsciiMapping.new map_to_mnemonic (fun _ => false))
        ([[65, 66]].flatten.take (1 : Int).toNat) ∧
    (process (AsciiMapping.new map_to_mnemonic (fun _ => false))
        [[65, 66]] 1).2.1 = 0 :=
  c4_truncation_exact (AsciiMapping.new map_to_mnemonic (fun _ => false))
    [[65, 66]] 1 (by decide) (by decide) (by decide)

/-- C5: cumulative budget across sources.  When `main` processes sources
`A` then `B` with a shared budget `k ≥ 0` and `A` carries at least `k`
bytes, the whole output is the conversion of the first `k` bytes of `A`
(bytes are consumed from `A` first) and at most the one source `A` is ever
handed to `process` — no byte of `B` is read. -/
theorem c5_cumulative_budget (m : AsciiMapping) (A B : List (List Nat))
    (k : Int) (hA : ∀ c ∈ A, c ≠ []) (h0 : 0 ≤ k)
    (hk : k ≤ (A.flatten.length : Int)) :
    (runSources m [A, B] k).1 = convAll m (A.flatten.take k.toNat) ∧
    (runSources m [A, B] k).2.2 ≤ 1 := by
  by_cases hz : k = 0
  · subst hz
    simp [runSources, convAll_nil]
  · have hpos : ¬ (k = 0) := hz
    have hspec := process_nonneg_spec m A hA k h0
    have hb : (process m A k).2.1 = 0 := by
      rw [hspec]
      simp only
      omega
    simp only [runSources, hpos, if_false, hb, if_pos rfl]
    rw [hspec]
    simp

/-- C5, witness: sources `[[65]]` then `[[66]]` with budget 1. -/
theorem c5_witness :
    (runSources (AsciiMapping.new map_to_mnemonic (fun _ => false))
        [[[65]], [[66]]] 1).1 =
      convAll (AsciiMapping.new map_to_mnemonic (fun _ => false))
        ([[65]].flatten.take (1 : Int).toNat) ∧
    (runSources (AsciiMapping.new map_to_mnemonic (fun _ => false))
        [[[65]], [[66]]] 1).2.2 ≤ 1 :=
  c5_cumulative_budget (AsciiMapping.new map_to_mnemonic (fun _ => false))
    [[65]] [[66]] 1 (by decide) (by decide) (by decide)

/-- C7: unlimited budget.  For every source (any chunking into nonempty
chunks) a negative truncation budget makes `process` convert and emit the
entire input, and the budget value is exactly the same after the run. -/
theorem c7_unlimited_budget (m : AsciiMapping) (cs : List (List Nat))
    (t : Int) (hne : ∀ c ∈ cs, c ≠ []) (ht : t < 0) :
    (process m cs t).1 = convAll m cs.flatten ∧
    (process m cs t).2.1 = t := by
  rw [process_neg_spec m cs hne t ht]
  exact ⟨rfl, rfl⟩

/-- C7, witness: budget -1 on the input `[0, 65]`. -/
theorem c7_witness :
    (process (AsciiMapping.new map_to_mnemonic (fun _ => false))
        [[0, 65]] (-1)).1 =
      convAll (AsciiMapping.new map_to_mnemonic (fun _ => false))
        [[0, 65]].flatten ∧
    (process (AsciiMapping.new map_to_mnemonic (fun _ => false))
        [[0, 65]] (-1)).2.1 = -1 :=
  c7_unlimited_budget (AsciiMapping.new map_to_mnemonic (fun _ => false))
    [[0, 65]] (-1) (by decide) (by decide)
